import Mathlib

/-!
Verification of the data pipeline of `thermal_app.py`.

The program is a dashboard that navigates a directory tree, reads a CSV of
thermal-servo telemetry into a pandas data frame, derives a normalized table
with `prepare_data`, and renders four line charts with `plot_thermal_graphs`.

Shallow embedding choices:
* a cell value is `Option ℚ`; `none` models the floating `NaN` used by pandas
  as the "no value" marker (`np.nan`), `some q` a numeric value;
* a data frame is an ordered association list of named columns
  (`List (String × List Val)`), mirroring pandas column order and the
  column-wise operations the source performs;
* `df[c] = v` on a present column replaces it in place, on an absent column
  appends it at the end, exactly as pandas does (`setCol`);
* accessing a missing column (`df['FTC Servo Track']` on line 60) raises a
  `KeyError`; `prepare_data` therefore returns `Except String`;
* the filesystem touched by `get_subfolders` is a parameter (`FS`).
-/

namespace Thermal

/-- A cell value: `none` is pandas `NaN` ("no value"), `some q` a number. -/
abbrev Val := Option ℚ

/-- A data frame: ordered list of named columns. -/
abbrev DF := List (String × List Val)

/-- `c in df.columns`. -/
def hasCol : DF → String → Bool
  | [], _ => false
  | (cn, _) :: rest, c => if cn = c then true else hasCol rest c

/-- `df[c]` as a total function; callers in the embedding guard with
`hasCol` wherever the source would raise `KeyError`. -/
def getCol : DF → String → List Val
  | [], _ => []
  | (cn, v) :: rest, c => if cn = c then v else getCol rest c

/-- `df[c] = v`: replace a present column in place, append an absent one. -/
def setCol : DF → String → List Val → DF
  | [], c, v => [(c, v)]
  | (cn, v0) :: rest, c, v =>
      if cn = c then (c, v) :: rest else (cn, v0) :: setCol rest c v

/-- `len(df)`: number of rows, read off the first column. -/
def nRows : DF → ℕ
  | [] => 0
  | (_, v) :: _ => v.length

/-- Well-formedness of a pandas frame: all columns have the same length. -/
abbrev WF (df : DF) : Prop := ∀ p ∈ df, p.2.length = nRows df

/-- `x.shift(1)`: values move down one row, the first row becomes `NaN`. -/
def shift1 (xs : List Val) : List Val := (none :: xs).take xs.length

/-- `NaN`-propagating subtraction. -/
def subV : Val → Val → Val
  | some a, some b => some (a - b)
  | _, _ => none

/-- Python `abs` on a number. -/
def ratAbs (a : ℚ) : ℚ := if a < 0 then -a else a

/-- `NaN`-propagating absolute value. -/
def absV : Val → Val
  | some a => some (ratAbs a)
  | none => none

/-- `x.fillna(0)`. -/
def fillna0 (xs : List Val) : List Val := xs.map (fun v => some (v.getD 0))

/-- Lines 60-61: `abs(x.shift(1) - x)` followed by `fillna(0)`. -/
def backdiffCol (s : List Val) : List Val :=
  fillna0 ((List.zipWith subV (shift1 s) s).map absV)

/-- Lines 63-66: the fixed column order of the normalized table. -/
def orderedColumns : List String :=
  ["Spiral Count", "Spiral Number", "LastFindTrackCenterPosition",
   "FTC Servo Track", "PID Posn Error", "backdiff",
   "mS FTC time", "PWupdate", "nS LastIndex2SIM",
   "nS diffInx2SIM", "AvgChangeInIndexToSIM", "ns Time Correction"]

/-- A column of `NaN`s: `df[col] = np.nan` broadcast over `len(df)` rows. -/
def nanCol (n : ℕ) : List Val := List.replicate n none

/-- One iteration of the loop on lines 68-70:
`if col not in df.columns: df[col] = np.nan`. -/
def addMissing (d : DF) (c : String) : DF :=
  if hasCol d c then d else setCol d c (nanCol (nRows d))

/-- The whole loop on lines 68-70. -/
def fillMissing (d : DF) : List String → DF
  | [] => d
  | c :: cs => fillMissing (addMissing d c) cs

/-- Line 72: `df[ordered_columns]`, projection to the listed columns. -/
def project (d : DF) (cs : List String) : DF :=
  cs.map (fun c => (c, getCol d c))

/-- Line 75: `range(1, len(prepared_df) + 1)` as a column. -/
def seqCol (n : ℕ) : List Val :=
  (List.range n).map (fun (i : ℕ) => some (((i + 1 : ℕ) : ℚ)))

/-- 0-based positions of the rows whose value equals 0
(`prepared_df.index[prepared_df[c] == 0].tolist()`; `NaN == 0` is false). -/
def zeroIndices (xs : List Val) : List ℕ :=
  (List.range xs.length).filter (fun i => decide (xs.getD i none = some 0))

/-- Lines 78-79: `zero_spiral_indices[1] + 1` — the 1-based position of the
second zero-valued row — when at least two zero rows exist, otherwise `-1`. -/
def secondZeroOf (xs : List Val) : Int :=
  let zs := zeroIndices xs
  if h : 1 < zs.length then (zs.get ⟨1, h⟩ : Int) + 1 else -1

/-- Lines 78-79: the marker, computed on the spiral-number column of the
prepared frame. -/
def markerOf (p : DF) : Int := secondZeroOf (getCol p "Spiral Number")

/-- The caller-visible state of the raw frame after `prepare_data` returns:
the source mutates its argument in place on lines 60-61 (adds `backdiff`)
and 68-70 (adds every missing expected column as `NaN`). -/
def rawAfter (df : DF) : DF :=
  fillMissing (setCol df "backdiff" (backdiffCol (getCol df "FTC Servo Track")))
    orderedColumns

/-- Lines 57-81, `prepare_data`: raises `KeyError` when the servo-track
column is absent (line 60), otherwise returns the projected, renumbered
frame together with the zero-spiral marker. -/
def prepare_data (df : DF) : Except String (DF × Int) :=
  if hasCol df "FTC Servo Track" = true then
    let pre := project (rawAfter df) orderedColumns
    let prepared := setCol pre "Spiral Count" (seqCol (nRows pre))
    Except.ok (prepared, markerOf prepared)
  else
    Except.error "KeyError: FTC Servo Track"

/-- Whether an `Except` result is a success. -/
def exceptOk : Except String (DF × Int) → Bool
  | Except.ok _ => true
  | Except.error _ => false

/-- Boolean comparison of an `Except` result with a given success value. -/
def exceptEqOk (e : Except String (DF × Int)) (r : DF × Int) : Bool :=
  match e with
  | Except.ok x => decide (x = r)
  | Except.error _ => false

theorem eq_ok_of_exceptEqOk {e : Except String (DF × Int)} {r : DF × Int}
    (h : exceptEqOk e r = true) : e = Except.ok r := by
  cases e with
  | ok x =>
      have hx : x = r := of_decide_eq_true (by simpa [exceptEqOk] using h)
      simp [hx]
  | error s => simp [exceptEqOk] at h

/-! ### Basic lemmas about the column operations -/

theorem ratAbs_eq_abs (a : ℚ) : ratAbs a = |a| := by
  by_cases h : a < 0
  · simp [ratAbs, h, abs_of_neg h]
  · simp [ratAbs, h, abs_of_nonneg (le_of_not_lt h)]

theorem getCol_eq_nil_of_not_hasCol {d : DF} {c : String}
    (h : hasCol d c = false) : getCol d c = [] := by
  induction d with
  | nil => rfl
  | cons p rest ih =>
      obtain ⟨cn, v⟩ := p
      by_cases hc : cn = c
      · simp [hasCol, hc] at h
      · simp only [getCol, if_neg hc]
        exact ih (by simpa [hasCol, hc] using h)

theorem mem_of_hasCol {d : DF} {c : String} (h : hasCol d c = true) :
    (c, getCol d c) ∈ d := by
  induction d with
  | nil => simp [hasCol] at h
  | cons p rest ih =>
      obtain ⟨cn, v⟩ := p
      by_cases hc : cn = c
      · subst hc
        simp [getCol]
      · simp only [getCol, if_neg hc]
        exact List.mem_cons_of_mem _ (ih (by simpa [hasCol, hc] using h))

theorem length_getCol_of_WF {d : DF} {c : String} (hwf : WF d)
    (h : hasCol d c = true) : (getCol d c).length = nRows d :=
  hwf _ (mem_of_hasCol h)

theorem getCol_setCol_self (d : DF) (c : String) (v : List Val) :
    getCol (setCol d c v) c = v := by
  induction d with
  | nil => simp [setCol, getCol]
  | cons p rest ih =>
      obtain ⟨cn, v0⟩ := p
      by_cases hc : cn = c
      · simp [setCol, hc, getCol]
      · simp [setCol, hc, getCol, ih]

theorem getCol_setCol_ne (d : DF) {c c' : String} (v : List Val)
    (h : c' ≠ c) : getCol (setCol d c v) c' = getCol d c' := by
  induction d with
  | nil => simp [setCol, getCol, Ne.symm h]
  | cons p rest ih =>
      obtain ⟨cn, v0⟩ := p
      by_cases hc : cn = c
      · subst hc
        simp [setCol, getCol, Ne.symm h]
      · by_cases hc' : cn = c'
        · simp [setCol, hc, getCol, hc', h]
        · simp [setCol, hc, getCol, hc', ih]

theorem hasCol_setCol_self (d : DF) (c : String) (v : List Val) :
    hasCol (setCol d c v) c = true := by
  induction d with
  | nil => simp [setCol, hasCol]
  | cons p rest ih =>
      obtain ⟨cn, v0⟩ := p
      by_cases hc : cn = c
      · simp [setCol, hc, hasCol]
      · simp [setCol, hc, hasCol, ih]

theorem hasCol_setCol_ne (d : DF) {c c' : String} (v : List Val)
    (h : c' ≠ c) : hasCol (setCol d c v) c' = hasCol d c' := by
  induction d with
  | nil => simp [setCol, hasCol, Ne.symm h]
  | cons p rest ih =>
      obtain ⟨cn, v0⟩ := p
      by_cases hc : cn = c
      · subst hc
        simp [setCol, hasCol, Ne.symm h]
      · by_cases hc' : cn = c'
        · simp [setCol, hc, hasCol, hc', h]
        · simp [setCol, hc, hasCol, hc', ih]

theorem nRows_setCol {d : DF} {c : String} {v : List Val}
    (hv : v.length = nRows d) : nRows (setCol d c v) = nRows d := by
  cases d with
  | nil => simpa [setCol, nRows] using hv
  | cons p rest =>
      obtain ⟨cn, v0⟩ := p
      by_cases hc : cn = c
      · simpa [setCol, hc, nRows] using hv
      · simp [setCol, hc, nRows]

theorem mem_setCol {d : DF} {c : String} {v : List Val} {q : String × List Val}
    (h : q ∈ setCol d c v) : q ∈ d ∨ q = (c, v) := by
  induction d with
  | nil => simpa [setCol] using h
  | cons p rest ih =>
      obtain ⟨cn, v0⟩ := p
      by_cases hc : cn = c
      · rcases (by simpa [setCol, hc] using h : q = (c, v) ∨ q ∈ rest) with h1 | h1
        · exact Or.inr h1
        · exact Or.inl (List.mem_cons_of_mem _ h1)
      · rcases (by simpa [setCol, hc] using h :
            q = (cn, v0) ∨ q ∈ setCol rest c v) with h1 | h1
        · exact Or.inl (by simp [h1])
        · rcases ih h1 with h2 | h2
          · exact Or.inl (List.mem_cons_of_mem _ h2)
          · exact Or.inr h2

theorem WF_setCol {d : DF} {c : String} {v : List Val} (hwf : WF d)
    (hv : v.length = nRows d) : WF (setCol d c v) := by
  intro q hq
  rw [nRows_setCol hv]
  rcases mem_setCol hq with h | h
  · exact hwf _ h
  · subst h
    exact hv

theorem setCol_eq_append {d : DF} {c : String} (v : List Val)
    (h : hasCol d c = false) : setCol d c v = d ++ [(c, v)] := by
  induction d with
  | nil => simp [setCol]
  | cons p rest ih =>
      obtain ⟨cn, v0⟩ := p
      by_cases hc : cn = c
      · simp [hasCol, hc] at h
      · simp only [setCol, if_neg hc, List.cons_append, List.cons.injEq, true_and]
        exact ih (by simpa [hasCol, hc] using h)

theorem hasCol_append (d e : DF) (c : String) :
    hasCol (d ++ e) c = (hasCol d c || hasCol e c) := by
  induction d with
  | nil => simp [hasCol]
  | cons p rest ih =>
      obtain ⟨cn, v⟩ := p
      by_cases hc : cn = c
      · simp [hasCol, hc]
      · simp [hasCol, hc, ih]

theorem getCol_append_left {d : DF} (e : DF) {c : String}
    (h : hasCol d c = true) : getCol (d ++ e) c = getCol d c := by
  induction d with
  | nil => simp [hasCol] at h
  | cons p rest ih =>
      obtain ⟨cn, v⟩ := p
      by_cases hc : cn = c
      · simp [getCol, hc]
      · simp only [List.cons_append, getCol, if_neg hc]
        exact ih (by simpa [hasCol, hc] using h)

theorem getCol_append_right {d : DF} (e : DF) {c : String}
    (h : hasCol d c = false) : getCol (d ++ e) c = getCol e c := by
  induction d with
  | nil => simp
  | cons p rest ih =>
      obtain ⟨cn, v⟩ := p
      by_cases hc : cn = c
      · simp [hasCol, hc] at h
      · simp only [List.cons_append, getCol, if_neg hc]
        exact ih (by simpa [hasCol, hc] using h)

/-! ### Lemmas about the missing-column loop (lines 68-70) -/

theorem nRows_addMissing (d : DF) (c : String) : nRows (addMissing d c) = nRows d := by
  unfold addMissing
  by_cases h : hasCol d c = true
  · simp [h]
  · rw [if_neg (by simpa using h), setCol_eq_append _ (by simpa using h)]
    cases d with
    | nil => simp [nRows, nanCol]
    | cons p rest => simp [nRows]

theorem hasCol_addMissing_of_hasCol {d : DF} {c : String} (c' : String)
    (h : hasCol d c = true) : hasCol (addMissing d c') c = true := by
  unfold addMissing
  by_cases h' : hasCol d c' = true
  · simp [h', h]
  · rw [if_neg (by simpa using h'), setCol_eq_append _ (by simpa using h'),
      hasCol_append, h]
    rfl

theorem hasCol_addMissing_self (d : DF) (c : String) :
    hasCol (addMissing d c) c = true := by
  unfold addMissing
  by_cases h : hasCol d c = true
  · simp [h]
  · rw [if_neg (by simpa using h)]
    exact hasCol_setCol_self d c _

theorem getCol_addMissing_of_hasCol {d : DF} {c : String} (c' : String)
    (h : hasCol d c = true) : getCol (addMissing d c') c = getCol d c := by
  unfold addMissing
  by_cases h' : hasCol d c' = true
  · simp [h']
  · rw [if_neg (by simpa using h'), setCol_eq_append _ (by simpa using h'),
      getCol_append_left _ h]

theorem hasCol_addMissing_ne {d : DF} {c c' : String} (hne : c ≠ c')
    (h : hasCol d c = false) : hasCol (addMissing d c') c = false := by
  unfold addMissing
  by_cases h' : hasCol d c' = true
  · simp [h', h]
  · rw [if_neg (by simpa using h'), setCol_eq_append _ (by simpa using h'),
      hasCol_append, h]
    simp [hasCol, Ne.symm hne]

theorem hasCol_fillMissing_of_hasCol {d : DF} {c : String} (cs : List String)
    (h : hasCol d c = true) : hasCol (fillMissing d cs) c = true := by
  induction cs generalizing d with
  | nil => exact h
  | cons c0 cs ih => exact ih (hasCol_addMissing_of_hasCol c0 h)

theorem hasCol_fillMissing_of_mem {d : DF} {c : String} {cs : List String}
    (h : c ∈ cs) : hasCol (fillMissing d cs) c = true := by
  induction cs generalizing d with
  | nil => simp at h
  | cons c0 cs ih =>
      rcases List.mem_cons.mp h with h0 | h0
      · subst h0
        exact hasCol_fillMissing_of_hasCol cs (hasCol_addMissing_self d c)
      · exact ih h0

theorem getCol_fillMissing_of_hasCol {d : DF} {c : String} (cs : List String)
    (h : hasCol d c = true) : getCol (fillMissing d cs) c = getCol d c := by
  induction cs generalizing d with
  | nil => rfl
  | cons c0 cs ih =>
      rw [fillMissing, ih (hasCol_addMissing_of_hasCol c0 h),
        getCol_addMissing_of_hasCol c0 h]

theorem getCol_fillMissing_of_not_hasCol {d : DF} {c : String} {cs : List String}
    (h : hasCol d c = false) (hmem : c ∈ cs) :
    getCol (fillMissing d cs) c = nanCol (nRows d) := by
  induction cs generalizing d with
  | nil => simp at hmem
  | cons c0 cs ih =>
      by_cases h0 : c0 = c
      · subst h0
        rw [fillMissing, getCol_fillMissing_of_hasCol cs (hasCol_addMissing_self d c0)]
        unfold addMissing
        rw [if_neg (by simpa using h), getCol_setCol_self]
      · have hmem' : c ∈ cs := by
          rcases List.mem_cons.mp hmem with h1 | h1
          · exact absurd h1.symm h0
          · exact h1
        rw [fillMissing, ih (hasCol_addMissing_ne (fun he => h0 he.symm) h) hmem',
          nRows_addMissing]

theorem nRows_fillMissing (d : DF) (cs : List String) :
    nRows (fillMissing d cs) = nRows d := by
  induction cs generalizing d with
  | nil => rfl
  | cons c0 cs ih => rw [fillMissing, ih, nRows_addMissing]

theorem WF_addMissing {d : DF} (c : String) (hwf : WF d) : WF (addMissing d c) := by
  unfold addMissing
  by_cases h : hasCol d c = true
  · simpa [h] using hwf
  · rw [if_neg (by simpa using h)]
    exact WF_setCol hwf (by simp [nanCol])

theorem WF_fillMissing {d : DF} (cs : List String) (hwf : WF d) :
    WF (fillMissing d cs) := by
  induction cs generalizing d with
  | nil => exact hwf
  | cons c0 cs ih => exact ih (WF_addMissing c0 hwf)

/-! ### Lemmas about the projection (line 72) -/

theorem getCol_project {d : DF} {c : String} {cs : List String} (h : c ∈ cs) :
    getCol (project d cs) c = getCol d c := by
  induction cs with
  | nil => simp at h
  | cons c0 cs ih =>
      by_cases h0 : c0 = c
      · subst h0
        simp [project, getCol]
      · have hmem : c ∈ cs := by
          rcases List.mem_cons.mp h with h1 | h1
          · exact absurd h1.symm h0
          · exact h1
        simpa [project, getCol, h0] using ih hmem

theorem colNames_project (d : DF) (cs : List String) :
    (project d cs).map Prod.fst = cs := by
  induction cs with
  | nil => rfl
  | cons c0 cs ih =>
      show ((c0, getCol d c0) :: project d cs).map Prod.fst = c0 :: cs
      rw [List.map_cons, ih]

theorem mem_project {d : DF} {cs : List String} {q : String × List Val}
    (h : q ∈ project d cs) : ∃ c ∈ cs, q = (c, getCol d c) := by
  rcases List.mem_map.mp h with ⟨c, hc, hq⟩
  exact ⟨c, hc, hq.symm⟩

theorem hasCol_project_of_mem {d : DF} {c : String} {cs : List String}
    (h : c ∈ cs) : hasCol (project d cs) c = true := by
  induction cs with
  | nil => simp at h
  | cons c0 cs ih =>
      by_cases h0 : c0 = c
      · simp [project, hasCol, h0]
      · have hmem : c ∈ cs := by
          rcases List.mem_cons.mp h with h1 | h1
          · exact absurd h1.symm h0
          · exact h1
        simpa [project, hasCol, h0] using ih hmem

theorem colNames_setCol_of_hasCol {d : DF} {c : String} (v : List Val)
    (h : hasCol d c = true) : (setCol d c v).map Prod.fst = d.map Prod.fst := by
  induction d with
  | nil => simp [hasCol] at h
  | cons p rest ih =>
      obtain ⟨cn, v0⟩ := p
      by_cases hc : cn = c
      · simp [setCol, hc]
      · simp only [setCol, if_neg hc, List.map_cons, List.cons.injEq, true_and]
        exact ih (by simpa [hasCol, hc] using h)

/-! ### Length and value lemmas for the derived columns -/

theorem length_seqCol (n : ℕ) : (seqCol n).length = n := by
  rw [seqCol, List.length_map, List.length_range]

theorem length_nanCol (n : ℕ) : (nanCol n).length = n := by
  simp [nanCol]

theorem length_shift1 (s : List Val) : (shift1 s).length = s.length := by
  simp [shift1]

theorem length_fillna0 (s : List Val) : (fillna0 s).length = s.length := by
  simp [fillna0]

theorem length_backdiffCol (s : List Val) : (backdiffCol s).length = s.length := by
  simp [backdiffCol, length_fillna0, length_shift1]

theorem getD_nanCol (n i : ℕ) : (nanCol n).getD i none = none := by
  induction n generalizing i with
  | zero => simp [nanCol]
  | succ n ih =>
      cases i with
      | zero => simp [nanCol, List.replicate_succ]
      | succ i =>
          rw [nanCol, List.replicate_succ, List.getD_cons_succ]
          exact ih i

theorem zeroIndices_nanCol (n : ℕ) : zeroIndices (nanCol n) = [] := by
  rw [zeroIndices, List.filter_eq_nil_iff]
  intro i hi
  simp only [decide_eq_true_eq, getD_nanCol]
  simp

theorem zeroIndices_nil : zeroIndices [] = [] := rfl

/-! ### A closed form for the back-difference column -/

theorem zipWith_take_length (f : Val → Val → Val) :
    ∀ (l l' : List Val), List.zipWith f (l.take l'.length) l' = List.zipWith f l l' := by
  intro l l'
  induction l' generalizing l with
  | nil => simp
  | cons y ys ih =>
      cases l with
      | nil => simp
      | cons x xs => simp [List.take_succ_cons, ih]

theorem zipWith_shift1 (s : List Val) :
    List.zipWith subV (shift1 s) s = List.zipWith subV (none :: s) s := by
  rw [shift1]
  exact zipWith_take_length subV (none :: s) s

/-- Adjacent absolute differences of a numeric column, seeded with the
previous value: the value at row `i` is `abs(prev_i - cur_i)`. -/
def adjDiffs (prev : ℚ) : List ℚ → List Val
  | [] => []
  | q :: qs => some (ratAbs (prev - q)) :: adjDiffs q qs

theorem fillna_zip_adjDiffs : ∀ (qs : List ℚ) (prev : ℚ),
    fillna0 ((List.zipWith subV (some prev :: qs.map some) (qs.map some)).map absV)
      = adjDiffs prev qs := by
  intro qs
  induction qs with
  | nil => intro prev; rfl
  | cons r rs ih =>
      intro prev
      simp only [List.map_cons, List.zipWith_cons_cons, fillna0, subV, absV, adjDiffs]
      simp only [Option.getD_some, List.map_cons]
      exact congrArg _ (by simpa [fillna0] using ih r)

theorem backdiffCol_nil : backdiffCol [] = [] := rfl

theorem backdiffCol_cons (q : ℚ) (qs : List ℚ) :
    backdiffCol ((q :: qs).map some) = some 0 :: adjDiffs q qs := by
  rw [backdiffCol, zipWith_shift1]
  simp only [List.map_cons, List.zipWith_cons_cons, subV, absV, fillna0, List.map_cons,
    Option.getD_none]
  exact congrArg _ (by simpa [fillna0] using fillna_zip_adjDiffs qs q)

theorem adjDiffs_getD : ∀ (qs : List ℚ) (prev : ℚ) (i : ℕ), i < qs.length →
    (adjDiffs prev qs).getD i none
      = some (ratAbs ((prev :: qs).getD i 0 - qs.getD i 0)) := by
  intro qs
  induction qs with
  | nil => intro prev i hi; simp at hi
  | cons r rs ih =>
      intro prev i hi
      cases i with
      | zero => simp [adjDiffs]
      | succ j =>
          have hj : j < rs.length := by simpa using hi
          simpa [adjDiffs] using ih r j hj

/-! ### Unfolding `prepare_data` -/

/-- The normalized table produced by `prepare_data` (the value bound to
`prepared_df` when the function returns). -/
def preparedOf (df : DF) : DF :=
  setCol (project (rawAfter df) orderedColumns) "Spiral Count"
    (seqCol (nRows (project (rawAfter df) orderedColumns)))

theorem prepare_data_eq {df : DF} (hs : hasCol df "FTC Servo Track" = true) :
    prepare_data df = Except.ok (preparedOf df, markerOf (preparedOf df)) := by
  rw [prepare_data, if_pos hs]
  rfl

theorem prepare_data_eq_error {df : DF} (hs : hasCol df "FTC Servo Track" = false) :
    prepare_data df = Except.error "KeyError: FTC Servo Track" := by
  rw [prepare_data, if_neg (by simp [hs])]

/-! ### The columns of `rawAfter` and `preparedOf` -/

theorem getCol_rawAfter_backdiff (df : DF) :
    getCol (rawAfter df) "backdiff" = backdiffCol (getCol df "FTC Servo Track") := by
  rw [rawAfter, getCol_fillMissing_of_hasCol _ (hasCol_setCol_self _ _ _),
    getCol_setCol_self]

theorem getCol_rawAfter_of_hasCol {df : DF} {c : String} (hbd : c ≠ "backdiff")
    (h : hasCol df c = true) : getCol (rawAfter df) c = getCol df c := by
  rw [rawAfter,
    getCol_fillMissing_of_hasCol _ (by rw [hasCol_setCol_ne _ _ hbd]; exact h),
    getCol_setCol_ne _ _ hbd]

theorem nRows_setBackdiff {df : DF} (hwf : WF df)
    (hs : hasCol df "FTC Servo Track" = true) :
    nRows (setCol df "backdiff" (backdiffCol (getCol df "FTC Servo Track")))
      = nRows df :=
  nRows_setCol (by rw [length_backdiffCol]; exact length_getCol_of_WF hwf hs)

theorem getCol_rawAfter_of_missing {df : DF} {c : String} (hwf : WF df)
    (hs : hasCol df "FTC Servo Track" = true) (hbd : c ≠ "backdiff")
    (hmem : c ∈ orderedColumns) (h : hasCol df c = false) :
    getCol (rawAfter df) c = nanCol (nRows df) := by
  rw [rawAfter,
    getCol_fillMissing_of_not_hasCol (by rw [hasCol_setCol_ne _ _ hbd]; exact h) hmem,
    nRows_setBackdiff hwf hs]

theorem hasCol_rawAfter_of_mem {df : DF} {c : String} (hmem : c ∈ orderedColumns) :
    hasCol (rawAfter df) c = true :=
  hasCol_fillMissing_of_mem hmem

theorem nRows_rawAfter {df : DF} (hwf : WF df)
    (hs : hasCol df "FTC Servo Track" = true) : nRows (rawAfter df) = nRows df := by
  rw [rawAfter, nRows_fillMissing, nRows_setBackdiff hwf hs]

theorem WF_rawAfter {df : DF} (hwf : WF df)
    (hs : hasCol df "FTC Servo Track" = true) : WF (rawAfter df) :=
  WF_fillMissing _
    (WF_setCol hwf (by rw [length_backdiffCol]; exact length_getCol_of_WF hwf hs))

theorem length_getCol_rawAfter {df : DF} (hwf : WF df)
    (hs : hasCol df "FTC Servo Track" = true) {c : String}
    (hmem : c ∈ orderedColumns) : (getCol (rawAfter df) c).length = nRows df := by
  by_cases hbd : c = "backdiff"
  · subst hbd
    rw [getCol_rawAfter_backdiff, length_backdiffCol]
    exact length_getCol_of_WF hwf hs
  · by_cases hpres : hasCol df c = true
    · rw [getCol_rawAfter_of_hasCol hbd hpres]
      exact length_getCol_of_WF hwf hpres
    · rw [getCol_rawAfter_of_missing hwf hs hbd hmem (by simpa using hpres),
        length_nanCol]

theorem nRows_project_ordered (d : DF) :
    nRows (project d orderedColumns) = (getCol d "Spiral Count").length := rfl

theorem getCol_preparedOf_ne {df : DF} {c : String} (hne : c ≠ "Spiral Count")
    (hmem : c ∈ orderedColumns) :
    getCol (preparedOf df) c = getCol (rawAfter df) c := by
  rw [preparedOf, getCol_setCol_ne _ _ hne, getCol_project hmem]

theorem getCol_preparedOf_seq (df : DF) :
    getCol (preparedOf df) "Spiral Count"
      = seqCol (nRows (project (rawAfter df) orderedColumns)) := by
  rw [preparedOf, getCol_setCol_self]

theorem nRows_project_rawAfter {df : DF} (hwf : WF df)
    (hs : hasCol df "FTC Servo Track" = true) :
    nRows (project (rawAfter df) orderedColumns) = nRows df := by
  rw [nRows_project_ordered]
  exact length_getCol_rawAfter hwf hs (by simp [orderedColumns])

theorem nRows_preparedOf {df : DF} (hwf : WF df)
    (hs : hasCol df "FTC Servo Track" = true) : nRows (preparedOf df) = nRows df := by
  rw [preparedOf, nRows_setCol (by rw [length_seqCol])]
  exact nRows_project_rawAfter hwf hs

/-! ### The chart renderer (lines 83-120)

`plot_thermal_graphs(df, msn_name)` reads the module-level global
`zero_spiral` (line 88); the embedding passes that global's value as an
explicit first argument. The figure is modelled by its behaviourally
relevant content: the suptitle and, per panel, the vertical reference
lines, plotted data, title, axis labels, line color and grid flag. -/

structure Panel where
  vlines : List Int
  xdata : List Val
  ydata : List Val
  title : String
  xlabel : Option String
  ylabel : String
  color : String
  grid : Bool
deriving DecidableEq

structure Figure where
  suptitle : String
  panels : List Panel
deriving DecidableEq

/-- Lines 83-120: the four panels; each gets `ax.axvline(x=zero_spiral, ...)`
(line 88) before its data is plotted. -/
def plot_thermal_graphs (zero_spiral : Int) (df : DF) (msn_name : String) : Figure :=
  { suptitle := "Thermal Analysis: " ++ msn_name,
    panels :=
      [{ vlines := [zero_spiral], xdata := getCol df "Spiral Count",
         ydata := getCol df "FTC Servo Track",
         title := "FTC Servo Track vs Spiral Count", xlabel := none,
         ylabel := "Servo Track", color := "#1f77b4", grid := true },
       { vlines := [zero_spiral], xdata := getCol df "Spiral Count",
         ydata := getCol df "mS FTC time",
         title := "mS FTC Time vs Spiral Count", xlabel := none,
         ylabel := "Time (ms)", color := "#2ca02c", grid := true },
       { vlines := [zero_spiral], xdata := getCol df "Spiral Count",
         ydata := getCol df "backdiff",
         title := "Backdiff vs Spiral Count", xlabel := some "Spiral Count",
         ylabel := "Difference", color := "#d62728", grid := true },
       { vlines := [zero_spiral], xdata := getCol df "Spiral Count",
         ydata := getCol df "PWupdate",
         title := "PWupdate vs Spiral Count", xlabel := some "Spiral Count",
         ylabel := "Value", color := "#9467bd", grid := true }] }

/-! ### The filesystem helper (lines 47-55)

The filesystem is a parameter: `pathExists` models `os.path.exists`,
`listdir` models `os.listdir` (which can throw, hence `Except`), and
`isdir` models `os.path.isdir`. -/

structure FS where
  pathExists : String → Bool
  listdir : String → Except String (List String)
  isdir : String → Bool

/-- `os.path.join(path, f)`. -/
def joinPath (a b : String) : String := a ++ "/" ++ b

/-- Lines 47-55, `get_subfolders`: list the subdirectories of `path`,
returning `[]` when the path does not exist or listing throws (the
`except` branch reports the error and returns `[]`). -/
def get_subfolders (fs : FS) (path : String) : List String :=
  if fs.pathExists path then
    match fs.listdir path with
    | Except.ok items => items.filter (fun f => fs.isdir (joinPath path f))
    | Except.error _ => []
  else []

/-! ### Concrete data used by the witnesses and counterexamples

`dfEx` is the scenario from the specification: raw rows
`[{Servo:5,Spiral:1},{Servo:7,Spiral:0},{Servo:2,Spiral:0}]`. -/

def dfEx : DF :=
  [("FTC Servo Track", [some 5, some 7, some 2]),
   ("Spiral Number", [some 1, some 0, some 0])]

def nan3 : List Val := [none, none, none]

/-- The normalized table `prepare_data` produces from `dfEx`:
back-difference `[0, 2, 5]`, renumbered sequence column, `NaN` fills. -/
def prepEx : DF :=
  [("Spiral Count", [some 1, some 2, some 3]),
   ("Spiral Number", [some 1, some 0, some 0]),
   ("LastFindTrackCenterPosition", nan3),
   ("FTC Servo Track", [some 5, some 7, some 2]),
   ("PID Posn Error", nan3),
   ("backdiff", [some 0, some 2, some 5]),
   ("mS FTC time", nan3),
   ("PWupdate", nan3),
   ("nS LastIndex2SIM", nan3),
   ("nS diffInx2SIM", nan3),
   ("AvgChangeInIndexToSIM", nan3),
   ("ns Time Correction", nan3)]

/-- A raw frame with a servo-track column but no spiral-number column. -/
def dfNoSpiralNum : DF := [("FTC Servo Track", [some 1, some 2])]

/-- A filesystem on which every directory listing throws. -/
def fsDenied : FS :=
  { pathExists := fun _ => true,
    listdir := fun _ => Except.error "Permission denied",
    isdir := fun _ => false }

/- Concrete evaluation of `prepare_data` on the specification scenario
`dfEx`; `Rat.sub` is unsealed so that `decide` can reduce the arithmetic. -/
unseal Rat.sub in
theorem prepare_dfEx_eq : prepare_data dfEx = Except.ok (prepEx, 3) :=
  eq_ok_of_exceptEqOk (by decide)

/-! ### Claim theorems -/

/-- C1: for every raw record set (on which `prepare_data` succeeds, i.e.
the servo-track column is present), the returned `marker_index` equals the
1-based position, in original row order, of the second row whose
spiral-number field equals zero when at least two such rows exist, and
`-1` when fewer than two exist — in particular when there is exactly one
zero-spiral row, or none, or no spiral-number column at all. -/
theorem marker_is_second_zero_row (df : DF)
    (hs : hasCol df "FTC Servo Track" = true) :
    ∀ p m, prepare_data df = Except.ok (p, m) →
      m = secondZeroOf (getCol df "Spiral Number") := by
  intro p m hp
  rw [prepare_data_eq hs] at hp
  have hpm : (preparedOf df, markerOf (preparedOf df)) = (p, m) := by
    injection hp
  obtain ⟨hp1, hp2⟩ := Prod.mk.injEq .. ▸ hpm
  rw [← hp2, markerOf]
  by_cases hpres : hasCol df "Spiral Number" = true
  · rw [getCol_preparedOf_ne (by decide) (by simp [orderedColumns]),
      getCol_rawAfter_of_hasCol (by decide) hpres]
  · have hmiss : hasCol df "Spiral Number" = false := by simpa using hpres
    rw [getCol_preparedOf_ne (by decide) (by simp [orderedColumns]), rawAfter,
      getCol_fillMissing_of_not_hasCol
        (by rw [hasCol_setCol_ne _ _ (by decide)]; exact hmiss)
        (by simp [orderedColumns]),
      getCol_eq_nil_of_not_hasCol hmiss]
    simp [secondZeroOf, zeroIndices_nanCol, zeroIndices_nil]

theorem marker_is_second_zero_row_witness :
    hasCol dfEx "FTC Servo Track" = true ∧
      (3 : Int) = secondZeroOf (getCol dfEx "Spiral Number") :=
  ⟨by decide,
    marker_is_second_zero_row dfEx (by decide) prepEx 3 prepare_dfEx_eq⟩

/-- C2: when the raw record set contains a (numeric) servo-track column,
the back-difference column of the normalized table is `0` at row `0` and
`abs(servo_track[i-1] - servo_track[i])` at every row `i > 0`. -/
theorem backdiff_row_values (df : DF)
    (hs : hasCol df "FTC Servo Track" = true)
    (qs : List ℚ) (hq : getCol df "FTC Servo Track" = qs.map some)
    (p : DF) (m : Int) (hp : prepare_data df = Except.ok (p, m)) :
    ∀ i, i < qs.length →
      (getCol p "backdiff").getD i none
        = some (if i = 0 then 0 else |qs.getD (i - 1) 0 - qs.getD i 0|) := by
  intro i hi
  rw [prepare_data_eq hs] at hp
  have hpm : (preparedOf df, markerOf (preparedOf df)) = (p, m) := by
    injection hp
  obtain ⟨hp1, hp2⟩ := Prod.mk.injEq .. ▸ hpm
  have hbd : getCol p "backdiff" = backdiffCol (qs.map some) := by
    rw [← hp1, getCol_preparedOf_ne (by decide) (by simp [orderedColumns]),
      getCol_rawAfter_backdiff, hq]
  cases qs with
  | nil => simp at hi
  | cons q rest =>
      rw [hbd, backdiffCol_cons]
      cases i with
      | zero => simp
      | succ j =>
          have hj : j < rest.length := by simpa using hi
          rw [List.getD_cons_succ, adjDiffs_getD rest q j hj, ratAbs_eq_abs]
          simp [List.getD_cons_succ]

theorem backdiff_row_values_witness :
    (getCol prepEx "backdiff").getD 1 none
      = some (if (1 : ℕ) = 0 then 0
          else |([5, 7, 2] : List ℚ).getD (1 - 1) 0 - ([5, 7, 2] : List ℚ).getD 1 0|) :=
  backdiff_row_values dfEx (by decide) [5, 7, 2] (by decide) prepEx 3
    prepare_dfEx_eq 1 (by decide)

/-- C3 counterexample: on a raw record set that lacks the spiral-number
column (but has the servo-track column), `prepare_data` does NOT raise —
it succeeds, backfilling the missing column and returning marker `-1` —
refuting the claim that prepare raises on absence of either required
field. -/
theorem prepare_ok_without_spiral_number :
    hasCol dfNoSpiralNum "Spiral Number" = false ∧
      hasCol dfNoSpiralNum "FTC Servo Track" = true ∧
      exceptOk (prepare_data dfNoSpiralNum) = true := by
  refine ⟨by decide, by decide, ?_⟩
  rw [prepare_data_eq (by decide)]
  rfl

/-- C3 amended: `prepare_data` raises exactly when the servo-track column
is absent; a missing spiral-number column is tolerated (backfilled with
"no value", yielding marker `-1`) and does not raise. -/
theorem prepare_ok_iff_servo_present (df : DF) :
    exceptOk (prepare_data df) = hasCol df "FTC Servo Track" := by
  by_cases hs : hasCol df "FTC Servo Track" = true
  · rw [prepare_data_eq hs, hs]
    rfl
  · have hs' : hasCol df "FTC Servo Track" = false := by simpa using hs
    rw [prepare_data_eq_error hs', hs']
    rfl

/-- C4: for every normalized table and marker value (any `Int`, including
`-1` and values outside the data's range), the rendered figure has exactly
four panels and each panel carries exactly one vertical reference line, at
`x = marker`; rendering is total, with no special-casing and no error. -/
theorem panels_have_single_marker_line (z : Int) (df : DF) (label : String) :
    (plot_thermal_graphs z df label).panels.map Panel.vlines
      = [[z], [z], [z], [z]] := rfl

/-- C5: the normalized table has exactly as many rows as the (well-formed)
raw input — every column of the output has length `nRows df` — and the rows
are in the same order with none filtered or added: every input column other
than the regenerated sequence column and the derived back-difference column
is carried over unchanged. -/
theorem prepare_preserves_rows (df : DF) (hwf : WF df)
    (hs : hasCol df "FTC Servo Track" = true) (p : DF) (m : Int)
    (hp : prepare_data df = Except.ok (p, m)) :
    nRows p = nRows df ∧ (∀ q ∈ p, q.2.length = nRows df) ∧
      (∀ c ∈ orderedColumns, c ≠ "Spiral Count" → c ≠ "backdiff" →
        hasCol df c = true → getCol p c = getCol df c) := by
  rw [prepare_data_eq hs] at hp
  have hpm := Except.ok.inj hp
  have hp1 : preparedOf df = p := congrArg Prod.fst hpm
  subst hp1
  refine ⟨nRows_preparedOf hwf hs, ?_, ?_⟩
  · intro q hq
    rw [preparedOf] at hq
    rcases mem_setCol hq with hq1 | hq1
    · obtain ⟨c, hc, hq2⟩ := mem_project hq1
      have h2 : q.2 = getCol (rawAfter df) c := by rw [hq2]
      rw [h2]
      exact length_getCol_rawAfter hwf hs hc
    · have h2 : q.2 = seqCol (nRows (project (rawAfter df) orderedColumns)) := by
        rw [hq1]
      rw [h2, length_seqCol]
      exact nRows_project_rawAfter hwf hs
  · intro c hc hnsc hnbd hpres
    rw [getCol_preparedOf_ne hnsc hc, getCol_rawAfter_of_hasCol hnbd hpres]

theorem prepare_preserves_rows_witness : nRows prepEx = nRows dfEx :=
  (prepare_preserves_rows dfEx (by decide) (by decide) prepEx 3 prepare_dfEx_eq).1

/-- C6: the sequence-index column of the normalized table is the
consecutive integers `1..n` where `n` is the row count of the (well-formed)
raw input, regardless of any sequence-index values present in the input. -/
theorem sequence_column_renumbered (df : DF) (hwf : WF df)
    (hs : hasCol df "FTC Servo Track" = true) (p : DF) (m : Int)
    (hp : prepare_data df = Except.ok (p, m)) :
    getCol p "Spiral Count" = seqCol (nRows df) := by
  rw [prepare_data_eq hs] at hp
  have hpm : (preparedOf df, markerOf (preparedOf df)) = (p, m) := by
    injection hp
  obtain ⟨hp1, hp2⟩ := Prod.mk.injEq .. ▸ hpm
  subst hp1
  rw [getCol_preparedOf_seq, nRows_project_rawAfter hwf hs]

theorem sequence_column_renumbered_witness :
    getCol prepEx "Spiral Count" = seqCol (nRows dfEx) :=
  sequence_column_renumbered dfEx (by decide) (by decide) prepEx 3 prepare_dfEx_eq

/-- C7 counterexample: `backdiff` is one of the twelve expected fields and
is absent from the raw input `dfEx`, yet the normalized table materializes
it with computed values `[0, 2, 5]`, not with the "no value" marker —
refuting the claim that EVERY absent expected field is materialized as
"no value". -/
theorem absent_backdiff_not_nan :
    hasCol dfEx "backdiff" = false ∧
      prepare_data dfEx = Except.ok (prepEx, 3) ∧
      getCol prepEx "backdiff" ≠ nanCol (nRows dfEx) :=
  ⟨by decide, prepare_dfEx_eq, by decide⟩

/-- C7 amended: the normalized table consists of exactly the twelve
expected fields in the fixed order, and every expected field absent from
the raw input — other than the derived back-difference column and the
regenerated sequence-index column — is materialized as the "no value"
marker for every row, never changing the row count. -/
theorem missing_fields_nan_filled (df : DF) (hwf : WF df)
    (hs : hasCol df "FTC Servo Track" = true) (p : DF) (m : Int)
    (hp : prepare_data df = Except.ok (p, m)) :
    p.map Prod.fst = orderedColumns ∧
      (∀ c ∈ orderedColumns, c ≠ "Spiral Count" → c ≠ "backdiff" →
        hasCol df c = false → getCol p c = nanCol (nRows df)) := by
  rw [prepare_data_eq hs] at hp
  have hpm : (preparedOf df, markerOf (preparedOf df)) = (p, m) := by
    injection hp
  obtain ⟨hp1, hp2⟩ := Prod.mk.injEq .. ▸ hpm
  subst hp1
  constructor
  · rw [preparedOf,
      colNames_setCol_of_hasCol _ (hasCol_project_of_mem (by simp [orderedColumns])),
      colNames_project]
  · intro c hc hnsc hnbd hmiss
    rw [getCol_preparedOf_ne hnsc hc,
      getCol_rawAfter_of_missing hwf hs hnbd hc hmiss]

theorem missing_fields_nan_filled_witness : prepEx.map Prod.fst = orderedColumns :=
  (missing_fields_nan_filled dfEx (by decide) (by decide) prepEx 3 prepare_dfEx_eq).1

/-- C8: the subdirectory-listing helper never raises to its caller — it is
a total function — and: a non-existent path yields `[]`, a listing that
throws yields `[]`, and otherwise it returns exactly the entries of the
path that are directories. -/
theorem get_subfolders_total_spec (fs : FS) (path : String) :
    (fs.pathExists path = false → get_subfolders fs path = []) ∧
    (∀ e, fs.listdir path = Except.error e → get_subfolders fs path = []) ∧
    (∀ items, fs.pathExists path = true → fs.listdir path = Except.ok items →
      get_subfolders fs path = items.filter (fun f => fs.isdir (joinPath path f))) := by
  refine ⟨fun h => ?_, fun e he => ?_, fun items h hl => ?_⟩
  · simp [get_subfolders, h]
  · cases hex : fs.pathExists path with
    | false => simp [get_subfolders, hex]
    | true => simp [get_subfolders, hex, he]
  · simp [get_subfolders, h, hl]

theorem get_subfolders_total_spec_witness :
    get_subfolders fsDenied "/data/ammonite" = [] :=
  (get_subfolders_total_spec fsDenied "/data/ammonite").2.1 "Permission denied" rfl

/-- C9: rendering is deterministic — the renderer is a pure function of
the normalized table, the marker and the label, and at the call site the
global `zero_spiral` read on line 88 is the marker `prepare_data` computed
from that same table, so two renderings of the same normalized table with
the same label produce identical figures. -/
theorem render_deterministic (dfA dfB : DF) (zA zB : Int) (label : String)
    (hdf : dfA = dfB) (hA : zA = markerOf dfA) (hB : zB = markerOf dfB) :
    plot_thermal_graphs zA dfA label = plot_thermal_graphs zB dfB label := by
  subst hdf
  rw [hA, hB]

theorem render_deterministic_witness :
    plot_thermal_graphs 3 prepEx "MSN001" = plot_thermal_graphs 3 prepEx "MSN001" :=
  render_deterministic prepEx prepEx 3 3 "MSN001" rfl (by decide) (by decide)

/-- C10: `prepare_data` mutates its raw argument in place — `rawAfter df`
is the caller-visible state of the raw frame after the call: it has gained
the computed back-difference column and a "no value" column for every
expected field that was absent, its row count is unchanged, and (when the
input had no `backdiff` column) it differs from the original input. -/
theorem prepare_mutates_raw (df : DF) (hwf : WF df)
    (hs : hasCol df "FTC Servo Track" = true) :
    getCol (rawAfter df) "backdiff" = backdiffCol (getCol df "FTC Servo Track") ∧
      (∀ c ∈ orderedColumns, hasCol (rawAfter df) c = true) ∧
      (∀ c ∈ orderedColumns, c ≠ "backdiff" → hasCol df c = false →
        getCol (rawAfter df) c = nanCol (nRows df)) ∧
      nRows (rawAfter df) = nRows df ∧
      (hasCol df "backdiff" = false → rawAfter df ≠ df) := by
  refine ⟨getCol_rawAfter_backdiff df, fun c hc => hasCol_rawAfter_of_mem hc,
    fun c hc hnbd hmiss => getCol_rawAfter_of_missing hwf hs hnbd hc hmiss,
    nRows_rawAfter hwf hs, fun h hcontra => ?_⟩
  have hbd : hasCol (rawAfter df) "backdiff" = true :=
    hasCol_rawAfter_of_mem (by simp [orderedColumns])
  rw [hcontra, h] at hbd
  exact Bool.false_ne_true hbd

theorem prepare_mutates_raw_witness :
    getCol (rawAfter dfEx) "backdiff" = backdiffCol (getCol dfEx "FTC Servo Track") :=
  (prepare_mutates_raw dfEx (by decide) (by decide)).1

end Thermal
